import Mathlib

/-!
Verification of the schema-unification core of TypeI18n (src/gen.ts).

The definitions below are a shallow embedding of `toTypeNode`, `merge` and the
unification part of `gen` from src/gen.ts.  JavaScript objects and `Map`s are
modelled as insertion-ordered association lists, JavaScript `Set`s as
insertion-ordered duplicate-free lists.  Localized diagnostic messages
(module src/locales, absent from the sources) are modelled as a structured
message type `Diag`: the spec states that message construction (kind plus
structured fields) is decoupled from rendering, which is an external
collaborator.
-/

namespace TypeI18n

/-- The three value kinds of the descriptor model (the `kind` tag in types.ts). -/
inductive Kind where
  | string
  | call
  | record
deriving DecidableEq, Repr

/-- Modelled from the spec: an `Arg` of a parameterized value is either a fixed
`Literal` text fragment or a named `Param` placeholder (types.ts is absent
from the sources). -/
inductive ArgType where
  | literal (value : String)
  | param (name : String)
deriving DecidableEq, Repr

/-- Modelled from the spec: `isParamArgType` from utils.ts (absent from the
sources) recognizes the `Param` variant. -/
def isParamArgType : ArgType → Bool
  | .param _ => true
  | .literal _ => false

/-- The signature-relevant identity of an argument: the placeholder name of a
`Param` (`x.name` in gen.ts, applied after filtering with `isParamArgType`). -/
def ArgType.pname : ArgType → String
  | .param n => n
  | .literal v => v

/-- The descriptor tree of types.ts: a `string` leaf, a `call` leaf carrying the
ordered argument sequence, or a `record` with insertion-ordered keyed children.
`missing` models the sentinel flag set by `createMissingRecordTypeDescriptor`
and removed by `delete target.missing`. -/
inductive TypeDescriptor where
  | string (value : String)
  | call (body : List ArgType)
  | record (value : List (String × TypeDescriptor)) (missing : Bool)

/-- The `kind` field of a descriptor. -/
def TypeDescriptor.kind : TypeDescriptor → Kind
  | .string _ => .string
  | .call _ => .call
  | .record _ _ => .record

/-- Structured diagnostics: one constructor per message of src/locales used by
gen.ts, carrying exactly the fields passed at the call sites. -/
inductive Diag where
  | unexpectedValue (key : String) (value : String)
  | typeMismatch (path : String) (actually : Kind) (should : Kind)
  | argsDifferent (path : String) (one : String) (two : String)
  | keyMissing (path : String) (missing : String)
deriving DecidableEq, Repr

/-- One entry of the `context.missing` ledger: the locale names known to have
the key (`exists`) and the names known to lack it (`missing`), each an
insertion-ordered set. -/
structure MissingEntry where
  existsNames : List String
  missingNames : List String
deriving DecidableEq, Repr

/-- The unification context of gen.ts: the deduplicating error set, the current
path segments, and the missing-key ledger (a `Map` keyed by dotted path). -/
structure Context where
  errors : List Diag
  paths : List String
  missing : List (String × MissingEntry)
deriving DecidableEq, Repr

/-- Lookup in a JavaScript object / `Map`: the value of the first entry with
the given key, if present. -/
def getKey : List (String × α) → String → Option α
  | [], _ => none
  | e :: r, k => if e.1 = k then some e.2 else getKey r k

/-- Key-membership test (`key in obj` / `Map.has`). -/
def hasKey (l : List (String × α)) (k : String) : Bool :=
  (getKey l k).isSome

/-- JavaScript assignment `obj[k] = v` / `Map.set`: updates the existing entry
in place (preserving its position) or appends a new entry. -/
def setKey (l : List (String × α)) (k : String) (v : α) : List (String × α) :=
  if hasKey l k then l.map (fun e => if e.1 = k then (k, v) else e)
  else l ++ [(k, v)]

/-- JavaScript `Set.add` on an insertion-ordered duplicate-free list. -/
def addName (l : List String) (n : String) : List String :=
  if n ∈ l then l else l ++ [n]

/-- `new Set(array)`: deduplicate, keeping first occurrences in order. -/
def setOfList (l : List String) : List String :=
  l.foldl addName []

/-- `context.errors.add(msg)`: a JavaScript `Set` ignores an element already
present and otherwise appends it. -/
def addError (ctx : Context) (d : Diag) : Context :=
  if d ∈ ctx.errors then ctx else { ctx with errors := ctx.errors ++ [d] }

/-- Modelled from the spec: `getCurrentPath` from utils.ts (absent from the
sources) renders the current position as a dotted path. -/
def getCurrentPath (ctx : Context) : String :=
  String.intercalate "." ctx.paths

/-- The dotted paths built at the gen.ts call sites -- plain concatenation, so at
the top level (empty current path) the produced path starts with a dot. -/
def joinPath (p k : String) : String :=
  p ++ "." ++ k

/-- Modelled from the spec: entering `inPathContext` pushes the key onto the
context's path stack. -/
def pushPath (ctx : Context) (k : String) : Context :=
  { ctx with paths := ctx.paths ++ [k] }

/-- Modelled from the spec: leaving `inPathContext` restores the previous path
stack. -/
def setPaths (ctx : Context) (p : List String) : Context :=
  { ctx with paths := p }

/-- Ledger update for the `missing` side of an entry (gen.ts lines 73-78). -/
def umapMissing (m : List (String × MissingEntry)) (p : String) (name : String) :
    List (String × MissingEntry) :=
  match getKey m p with
  | none => setKey m p ⟨[], [name]⟩
  | some e => setKey m p ⟨e.existsNames, addName e.missingNames name⟩

/-- Ledger update for the `exists` side of an entry (gen.ts lines 98-103). -/
def umapExists (m : List (String × MissingEntry)) (p : String) (name : String) :
    List (String × MissingEntry) :=
  match getKey m p with
  | none => setKey m p ⟨[name], []⟩
  | some e => setKey m p ⟨addName e.existsNames name, e.missingNames⟩

/-- `context.missing` update, missing side. -/
def upsertMissing (ctx : Context) (p : String) (name : String) : Context :=
  { ctx with missing := umapMissing ctx.missing p name }

/-- `context.missing` update, exists side. -/
def upsertExists (ctx : Context) (p : String) (name : String) : Context :=
  { ctx with missing := umapExists ctx.missing p name }

/-- Modelled from the spec: `arrayEq` from utils.ts (absent from the sources)
compares two argument arrays position by position after mapping each element
to its name. -/
def arrayEq (a b : List ArgType) (f : ArgType → String) : Bool :=
  a.map f == b.map f

/-- Comma-joined name list, as produced by `.join(',')`. -/
def joinComma (l : List String) : String :=
  String.intercalate "," l

/-- The opening placeholder delimiter. -/
def lbrace : Char := Char.ofNat 123

/-- The closing placeholder delimiter. -/
def rbrace : Char := Char.ofNat 125

/-- Characters allowed in a placeholder identifier (a bare identifier). -/
def nameChar (c : Char) : Bool :=
  c.isAlphanum || c == '_'

/-- Modelled from the spec: the scanner behind the Template Parser
`matchCallBody` of helper.ts (absent from the sources).  It walks the
characters once; outside a placeholder (`mode = none`) it accumulates literal
text (reversed) in `lit`; after an opening delimiter (`mode = some nAcc`) it
accumulates an identifier; a closing delimiter after a nonempty identifier
emits the pending `Literal` fragment and a `Param`; anything that breaks the
placeholder syntax turns the pending characters back into literal text. -/
def scanArgs (acc : List ArgType) (lit : List Char) (mode : Option (List Char)) :
    List Char → List ArgType
  | [] =>
    let lit2 := match mode with
      | none => lit
      | some nAcc => nAcc ++ lbrace :: lit
    if lit2.isEmpty then acc else acc ++ [.literal (String.mk lit2.reverse)]
  | c :: rest =>
    match mode with
    | none =>
      if c == lbrace then scanArgs acc lit (some []) rest
      else scanArgs acc (c :: lit) none rest
    | some nAcc =>
      if c == rbrace then
        if nAcc.isEmpty then scanArgs acc (rbrace :: lbrace :: lit) none rest
        else
          scanArgs
            ((if lit.isEmpty then acc else acc ++ [.literal (String.mk lit.reverse)])
              ++ [.param (String.mk nAcc.reverse)]) [] none rest
      else if nameChar c then scanArgs acc lit (some (c :: nAcc)) rest
      else if c == lbrace then scanArgs acc (nAcc ++ lbrace :: lit) (some []) rest
      else scanArgs acc (c :: nAcc ++ lbrace :: lit) none rest

/-- Modelled from the spec: `matchCallBody` of helper.ts (absent from the
sources).  Given a scalar string it returns the ordered argument sequence when
the string contains at least one placeholder, and nothing otherwise (the
caller then treats the value as plain text). -/
def matchCallBody (s : String) : Option (List ArgType) :=
  let args := scanArgs [] [] none s.data
  if args.any isParamArgType then some args else none

/-- The scalar dispatch of `toTypeNode`: `createStringTypeDescriptor` when the
template parser finds no placeholders, `createCallTypeDescriptor` otherwise. -/
def strOrCall (s : String) : TypeDescriptor :=
  match matchCallBody s with
  | none => .string s
  | some args => .call args

/-- A raw per-locale value as the YAML parser delivers it to `toTypeNode`.
The constructors are split by the JavaScript `typeof` dispatch of gen.ts:
`str`/`num` are the scalar cases, `obj` has `typeof 'object'`, and `boolean`
falls to the `default` branch.  `null` and `arr` also have
`typeof 'object'` in JavaScript, so gen.ts sends them to the object branch:
`Object.entries(null)` throws a `TypeError`, and an array enumerates as
index-keyed entries. -/
inductive Yaml where
  | str (s : String)
  | num (n : Int)
  | boolean (b : Bool)
  | null
  | arr (elems : List Yaml)
  | obj (entries : List (String × Yaml))

mutual
/-- Size measure on raw values, used only for termination. -/
def ySize : Yaml → Nat
  | .arr vs => 1 + yListSize vs
  | .obj es => 1 + yEntSize es
  | _ => 1

def yListSize : List Yaml → Nat
  | [] => 0
  | v :: r => 1 + ySize v + yListSize r

def yEntSize : List (String × Yaml) → Nat
  | [] => 0
  | e :: r => 1 + ySize e.2 + yEntSize r
end

/-- `Object.entries` on a JavaScript array: index-keyed entries, indices
rendered in decimal starting from the given value. -/
def enumEntries (i : Nat) : List Yaml → List (String × Yaml)
  | [] => []
  | v :: r => (toString i, v) :: enumEntries (i + 1) r

/-- The JavaScript `TypeError` raised by `Object.entries(null)`. -/
inductive JsError where
  | typeError
deriving DecidableEq, Repr

theorem yEntSize_enumEntries (vs : List Yaml) :
    ∀ i, yEntSize (enumEntries i vs) = yListSize vs := by
  induction vs with
  | nil => intro i; rfl
  | cons v r ih => intro i; simp [enumEntries, yEntSize, yListSize, ih]

/-- The entry loop of `toTypeNode` (gen.ts lines 39-60): `acc` is the record
built so far, each entry is dispatched on `typeof`.  A number is coerced to
its decimal string and handled as a string; a string becomes a `string` or
`call` leaf via the template parser; an object value recurses with the path
extended; a boolean reaches the `default` branch, which records an
unexpected-value diagnostic and skips the key; `null` makes
`Object.entries` throw; an array is enumerated as an index-keyed object. -/
def buildGo (acc : List (String × TypeDescriptor)) (ctx : Context) :
    List (String × Yaml) → Except JsError (List (String × TypeDescriptor) × Context)
  | [] => .ok (acc, ctx)
  | (key, .num n) :: rest => buildGo (setKey acc key (strOrCall (toString n))) ctx rest
  | (key, .str s) :: rest => buildGo (setKey acc key (strOrCall s)) ctx rest
  | (key, .boolean b) :: rest =>
    buildGo acc (addError ctx (.unexpectedValue key (if b then "true" else "false"))) rest
  | (_, .null) :: _ => .error .typeError
  | (key, .arr vs) :: rest =>
    match buildGo [] (pushPath ctx key) (enumEntries 0 vs) with
    | .error e => .error e
    | .ok (inner, ctx2) =>
      buildGo (setKey acc key (.record inner false)) (setPaths ctx2 ctx.paths) rest
  | (key, .obj es) :: rest =>
    match buildGo [] (pushPath ctx key) es with
    | .error e => .error e
    | .ok (inner, ctx2) =>
      buildGo (setKey acc key (.record inner false)) (setPaths ctx2 ctx.paths) rest
termination_by l => yEntSize l
decreasing_by
  all_goals simp [yEntSize, ySize, yEntSize_enumEntries] <;> omega

/-- `toTypeNode` (gen.ts lines 37-63): builds a record descriptor from a raw
dictionary, threading the context. -/
def toTypeNode (node : List (String × Yaml)) (ctx : Context) :
    Except JsError (TypeDescriptor × Context) :=
  match buildGo [] ctx node with
  | .error e => .error e
  | .ok (l, c) => .ok (.record l false, c)

/-- The `files.map` step of `gen` (gen.ts lines 202-205): builds every locale's
tree in input order against the shared context; a raised `TypeError`
propagates. -/
def buildAll (ctx : Context) :
    List (String × List (String × Yaml)) →
      Except JsError (List (String × TypeDescriptor) × Context)
  | [] => .ok ([], ctx)
  | (n, node) :: rest =>
    match toTypeNode node ctx with
    | .error e => .error e
    | .ok (t, c) =>
      match buildAll c rest with
      | .error e => .error e
      | .ok (ts, c2) => .ok ((n, t) :: ts, c2)

mutual
/-- Size measure on descriptors, used only for termination of `merge`. -/
def tdSize : TypeDescriptor → Nat
  | .record vs _ => 1 + teSize vs
  | _ => 1

def teSize : List (String × TypeDescriptor) → Nat
  | [] => 0
  | e :: r => 1 + tdSize e.2 + teSize r
end

/-- The first loop of `merge` (gen.ts lines 71-91): every key of the canonical
accumulator is checked against the locale tree; an absent key is recorded on
the `missing` side of the ledger, a present key with a different kind yields a
type-mismatch diagnostic. -/
def phase1 (sv : List (String × TypeDescriptor)) (name : String) :
    List (String × TypeDescriptor) → Context → Context
  | [], ctx => ctx
  | (k, value) :: rest, ctx =>
    let ctx2 :=
      match getKey sv k with
      | none => upsertMissing ctx (joinPath (getCurrentPath ctx) k) name
      | some svd =>
        if svd.kind ≠ value.kind then
          addError ctx (.typeMismatch (joinPath (getCurrentPath ctx) k) svd.kind value.kind)
        else ctx
    phase1 sv name rest ctx2

mutual
/-- `merge` (gen.ts lines 65-143) on the payload of two record descriptors:
`tv`/`tm` are the canonical accumulator's entries and provisional flag,
`sv` the locale record's entries.  `mergeRec` runs the canonical-to-locale
check (`phase1`) and then the locale-to-canonical loop (`phase2`); the
caller clears the provisional flag afterwards (`delete target.missing`). -/
def mergeRec (tv : List (String × TypeDescriptor)) (tm : Bool)
    (sv : List (String × TypeDescriptor)) (name : String) (ctx : Context) :
    List (String × TypeDescriptor) × Context :=
  phase2 tm name (phase1 sv name tv ctx) tv sv
termination_by (teSize sv, 1)
decreasing_by
  apply Prod.Lex.right; omega

/-- The second loop of `merge` (gen.ts lines 93-136): a key absent from the
accumulator is adopted when the accumulator is provisional and ledgered on
the `exists` side otherwise; a shared string/string pair needs nothing; a
shared call/call pair compares the parameter name sequences and reports a
mismatch; a shared record/record pair recurses with the path extended; any
other combination is a type-mismatch diagnostic. -/
def phase2 (tm : Bool) (name : String) (ctx : Context)
    (tv : List (String × TypeDescriptor)) :
    List (String × TypeDescriptor) → List (String × TypeDescriptor) × Context
  | [] => (tv, ctx)
  | (k, v) :: rest =>
    match getKey tv k with
    | none =>
      if tm then phase2 tm name ctx (tv ++ [(k, v)]) rest
      else phase2 tm name (upsertExists ctx (joinPath (getCurrentPath ctx) k) name) tv rest
    | some tvd =>
      match tvd, v with
      | .string _, .string _ => phase2 tm name ctx tv rest
      | .call tb, .call vb =>
        if arrayEq (tb.filter isParamArgType) (vb.filter isParamArgType) ArgType.pname then
          phase2 tm name ctx tv rest
        else
          phase2 tm name
            (addError ctx (.argsDifferent (joinPath (getCurrentPath ctx) k)
              (joinComma ((tb.filter isParamArgType).map ArgType.pname))
              (joinComma ((vb.filter isParamArgType).map ArgType.pname)))) tv rest
      | .record twv twm, .record svv _ =>
        let r := mergeRec twv twm svv name (pushPath ctx k)
        phase2 tm name (setPaths r.2 ctx.paths) (setKey tv k (.record r.1 false)) rest
      | tvd, v =>
        phase2 tm name
          (addError ctx (.typeMismatch (joinPath (getCurrentPath ctx) k) v.kind tvd.kind))
          tv rest
termination_by l => (teSize l, 0)
decreasing_by
  all_goals simp [teSize, tdSize]
  all_goals apply Prod.Lex.left
  all_goals omega
end

/-- `merge` on whole descriptors: gen.ts always calls it with two records; the
provisional flag of the result is cleared (`delete target.missing`, gen.ts
lines 138-140). -/
def mergeTop (target source : TypeDescriptor) (name : String) (ctx : Context) :
    TypeDescriptor × Context :=
  match target, source with
  | .record tv tm, .record sv _ =>
    let r := mergeRec tv tm sv name ctx
    (.record r.1 false, r.2)
  | t, _ => (t, ctx)

/-- The fold of gen.ts lines 207-210: every locale tree is merged, in input
order, into one accumulator seeded with `createMissingRecordTypeDescriptor`. -/
def unify (trees : List (String × TypeDescriptor)) (ctx : Context) :
    TypeDescriptor × Context :=
  trees.foldl (fun acc nt => mergeTop acc.1 nt.2 nt.1 acc.2) (.record [] true, ctx)

/-- The diagnostic produced for one ledger entry (gen.ts lines 213-221): when
the `exists` set is non-empty the offending locales are the complement of
`exists` against all locale names, otherwise they are the recorded `missing`
set; `diffArray` of utils.ts (absent from the sources) is modelled from the
spec as the order-preserving complement. -/
def ledgerDiag (names : List String) (p : String) (e : MissingEntry) : Diag :=
  .keyMissing p
    (if e.existsNames.isEmpty then joinComma e.missingNames
     else joinComma (names.filter (fun x => ¬ e.existsNames.contains x)))

/-- The ledger-to-diagnostics conversion of gen.ts lines 212-222. -/
def finalizeMissing (names : List String) (ctx : Context) : Context :=
  ctx.missing.foldl (fun c pe => addError c (ledgerDiag names pe.1 pe.2)) ctx

/-- An aggregated failure: either the `TypeError` escaping the build step, or
the composite `Error` of gen.ts lines 224-231, modelled as the numbered list
of the collected diagnostics. -/
inductive GenError where
  | jsError (e : JsError)
  | composite (msgs : List (Nat × Diag))
deriving DecidableEq, Repr

/-- The numbered enumeration inside the thrown composite error (gen.ts lines
227-229). -/
def numberList (l : List Diag) : List (Nat × Diag) :=
  l.enum.map (fun p => (p.1 + 1, p.2))

/-- The tail of `gen` after the locale trees exist (gen.ts lines 207-231):
fold the trees into one canonical accumulator, convert the ledger, and either
return the canonical tree or the numbered composite diagnostics. -/
def unifyOutcome (names : List String) (trees : List (String × TypeDescriptor))
    (ctx : Context) : Except (List (Nat × Diag)) TypeDescriptor :=
  let r := unify trees ctx
  let ctx3 := finalizeMissing names r.2
  if ctx3.errors.isEmpty then .ok r.1 else .error (numberList ctx3.errors)

/-- Unification core of `gen` (gen.ts lines 199-231): build every locale tree,
fold them into one canonical accumulator, convert the ledger, and either throw
the composite error or hand the canonical tree and the per-locale trees to the
backend. -/
def genCore (files : List (String × List (String × Yaml))) :
    Except GenError (TypeDescriptor × List (String × TypeDescriptor)) :=
  match buildAll ⟨[], [], []⟩ files with
  | .error e => .error (.jsError e)
  | .ok (typeNodes, ctx1) =>
    match unifyOutcome (setOfList (files.map (fun f => f.1))) typeNodes ctx1 with
    | .ok m => .ok (m, typeNodes)
    | .error msgs => .error (.composite msgs)

/-- The final diagnostic list of a run whose build step did not crash. -/
def genDiags (files : List (String × List (String × Yaml))) : Option (List Diag) :=
  match buildAll ⟨[], [], []⟩ files with
  | .error _ => none
  | .ok (typeNodes, ctx1) =>
    some (finalizeMissing (setOfList (files.map (fun f => f.1))) (unify typeNodes ctx1).2).errors

/-- The canonical accumulator produced by the fold of a run whose build step
did not crash (the value gen.ts hands to the error check and the backend). -/
def genMerged (files : List (String × List (String × Yaml))) : Option TypeDescriptor :=
  match buildAll ⟨[], [], []⟩ files with
  | .error _ => none
  | .ok (typeNodes, ctx1) => some (unify typeNodes ctx1).1

/-- Duplicate-freedom of a key list. -/
def nodupB (l : List String) : Bool :=
  decide l.Nodup

mutual
/-- Well-formedness of a locale-derived descriptor: the provisional flag is
never set and every record has duplicate-free keys (trees built by
`toTypeNode` satisfy this). -/
def wfT : TypeDescriptor → Bool
  | .record vs m => !m && nodupB (vs.map (fun e => e.1)) && wfL vs
  | _ => true

/-- Well-formedness of a record payload. -/
def wfL : List (String × TypeDescriptor) → Bool
  | [] => true
  | e :: r => wfT e.2 && wfL r
end

mutual
/-- `subTE sv tv`: every key of the record payload `sv` is present in `tv`
with the same kind, recursively inside shared records (the smaller-locale
relation of the superset claim). -/
def subTE : List (String × TypeDescriptor) → List (String × TypeDescriptor) → Bool
  | [], _ => true
  | (k, v) :: r, tv =>
    (match getKey tv k with
     | none => false
     | some w => (decide (v.kind = w.kind)) && subNest v w) && subTE r tv
termination_by l _ => teSize l
decreasing_by
  all_goals simp [teSize, tdSize]
  all_goals omega

/-- Nested step of `subTE`: shared records recurse, leaves only need the kind
agreement already checked. -/
def subNest : TypeDescriptor → TypeDescriptor → Bool
  | .record svv _, .record twv _ => subTE svv twv
  | _, _ => true
termination_by v _ => tdSize v
decreasing_by
  all_goals simp [teSize, tdSize]
end

/-- The ledger paths produced at one level by the canonical-to-locale check:
one dotted path per canonical key absent from the locale record, in canonical
order. -/
def mp1 (pre : List String) (sv : List (String × TypeDescriptor)) :
    List (String × TypeDescriptor) → List String
  | [] => []
  | (k, _) :: r =>
    (if hasKey sv k then [] else [joinPath (String.intercalate "." pre) k]) ++ mp1 pre sv r

mutual
/-- All ledger paths recorded when merging the locale record `sv` into the
canonical record `tv` at position `pre`, in emission order: first the current
level's absent keys, then the nested levels reached through shared records. -/
def mp (pre : List String) (tv sv : List (String × TypeDescriptor)) : List String :=
  mp1 pre sv tv ++ mp2 pre tv sv
termination_by teSize sv + 1
decreasing_by
  all_goals simp [teSize, tdSize]

/-- The nested part of `mp`: walk the locale record's entries and recurse into
shared record keys. -/
def mp2 (pre : List String) (tv : List (String × TypeDescriptor)) :
    List (String × TypeDescriptor) → List String
  | [] => []
  | (k, v) :: r =>
    (match getKey tv k, v with
     | some (.record twv _), .record svv _ => mp (pre ++ [k]) twv svv
     | _, _ => []) ++ mp2 pre tv r
termination_by l => teSize l
decreasing_by
  all_goals simp [teSize, tdSize]
  all_goals omega
end

mutual
/-- Raw dictionaries containing only string, number and nested-dictionary
values. -/
def goodY : Yaml → Bool
  | .str _ => true
  | .num _ => true
  | .obj es => goodE es
  | .boolean _ => false
  | .null => false
  | .arr _ => false
termination_by v => ySize v
decreasing_by
  all_goals simp [ySize, yEntSize]

/-- `goodY` on every value of an entry list. -/
def goodE : List (String × Yaml) → Bool
  | [] => true
  | e :: r => goodY e.2 && goodE r
termination_by l => yEntSize l
decreasing_by
  all_goals simp [ySize, yEntSize]
  all_goals omega
end

/-- The pure tree built by `toTypeNode` from a raw dictionary: the same entry
dispatch as `buildGo`, without the context (invalid values contribute
nothing, mirroring the skip in gen.ts). -/
def bgo (acc : List (String × TypeDescriptor)) :
    List (String × Yaml) → List (String × TypeDescriptor)
  | [] => acc
  | (key, .num n) :: rest => bgo (setKey acc key (strOrCall (toString n))) rest
  | (key, .str s) :: rest => bgo (setKey acc key (strOrCall s)) rest
  | (_, .boolean _) :: rest => bgo acc rest
  | (_, .null) :: rest => bgo acc rest
  | (key, .arr vs) :: rest => bgo (setKey acc key (.record (bgo [] (enumEntries 0 vs)) false)) rest
  | (key, .obj es) :: rest => bgo (setKey acc key (.record (bgo [] es) false)) rest
termination_by l => yEntSize l
decreasing_by
  all_goals simp [yEntSize, ySize, yEntSize_enumEntries] <;> omega

/-! ### Basic facts about the association-list and set primitives -/

theorem getKey_eq_none_of_not_mem {α : Type} {l : List (String × α)} {k : String}
    (h : k ∉ l.map Prod.fst) : getKey l k = none := by
  induction l with
  | nil => rfl
  | cons e r ih =>
    obtain ⟨a, b⟩ := e
    simp only [List.map_cons, List.mem_cons, not_or] at h
    simp only [getKey]
    rw [if_neg (fun he => h.1 he.symm), ih h.2]

theorem mem_of_getKey_eq_some {α : Type} {l : List (String × α)} {k : String} {v : α}
    (h : getKey l k = some v) : (k, v) ∈ l := by
  induction l with
  | nil => simp [getKey] at h
  | cons e r ih =>
    obtain ⟨a, b⟩ := e
    simp only [getKey] at h
    by_cases he : a = k
    · rw [if_pos he] at h
      injection h with hv
      subst he
      subst hv
      exact List.mem_cons_self _ _
    · rw [if_neg he] at h
      exact List.mem_cons_of_mem _ (ih h)

theorem getKey_of_mem_nodup {α : Type} {l : List (String × α)} {k : String} {v : α}
    (hnd : (l.map Prod.fst).Nodup) (h : (k, v) ∈ l) : getKey l k = some v := by
  induction l with
  | nil => simp at h
  | cons e r ih =>
    obtain ⟨a, b⟩ := e
    simp only [List.map_cons, List.nodup_cons] at hnd
    rcases List.mem_cons.1 h with he | hr
    · injection he with h1 h2
      simp [getKey, h1.symm, h2]
    · have hk : a ≠ k := by
        intro hek
        subst hek
        exact hnd.1 (List.mem_map_of_mem Prod.fst hr)
      simp only [getKey, if_neg hk]
      exact ih hnd.2 hr

theorem hasKey_iff_mem_keys {α : Type} {l : List (String × α)} {k : String} :
    hasKey l k = true ↔ k ∈ l.map Prod.fst := by
  induction l with
  | nil => simp [hasKey, getKey]
  | cons e r ih =>
    obtain ⟨a, b⟩ := e
    simp only [hasKey, getKey, List.map_cons, List.mem_cons] at *
    by_cases he : a = k
    · simp [he]
    · simp only [if_neg he]
      rw [ih]
      constructor
      · exact Or.inr
      · rintro (h | h)
        · exact absurd h.symm he
        · exact h

theorem map_subst_of_not_mem {α : Type} {l : List (String × α)} {k : String} (v : α)
    (h : k ∉ l.map Prod.fst) :
    l.map (fun e => if e.1 = k then (k, v) else e) = l := by
  induction l with
  | nil => rfl
  | cons e r ih =>
    obtain ⟨a, b⟩ := e
    simp only [List.map_cons, List.mem_cons, not_or] at h
    simp only [List.map_cons]
    rw [if_neg (fun he => h.1 he.symm), ih h.2]

theorem setKey_eq_self {α : Type} {l : List (String × α)} {k : String} {v : α}
    (hnd : (l.map Prod.fst).Nodup) (h : getKey l k = some v) : setKey l k v = l := by
  have hs : hasKey l k = true := by simp [hasKey, h]
  rw [setKey, if_pos hs]
  clear hs
  induction l with
  | nil => rfl
  | cons e r ih =>
    obtain ⟨a, b⟩ := e
    simp only [List.map_cons, List.nodup_cons] at hnd
    simp only [getKey] at h
    simp only [List.map_cons]
    by_cases he : a = k
    · rw [if_pos he] at h
      injection h with hv
      subst he
      rw [if_pos rfl, map_subst_of_not_mem v hnd.1, hv]
    · rw [if_neg he] at h
      rw [if_neg (show (a, b).1 ≠ k from he), ih hnd.2 h]

theorem setKey_append_of_not_mem {α : Type} {l : List (String × α)} {k : String} (v : α)
    (h : k ∉ l.map Prod.fst) : setKey l k v = l ++ [(k, v)] := by
  have : hasKey l k = false := by
    rw [hasKey, getKey_eq_none_of_not_mem h]
    rfl
  simp [setKey, this]

theorem setKey_keys_of_mem {α : Type} {l : List (String × α)} {k : String} (v : α)
    (h : hasKey l k = true) :
    (setKey l k v).map Prod.fst = l.map Prod.fst := by
  rw [setKey, if_pos h, List.map_map]
  apply List.map_congr_left
  intro e _
  by_cases hek : e.1 = k
  · simp [Function.comp, hek]
  · simp [Function.comp, hek]

theorem setKey_keys_nodup {α : Type} {l : List (String × α)} {k : String} (v : α)
    (hnd : (l.map Prod.fst).Nodup) : ((setKey l k v).map Prod.fst).Nodup := by
  by_cases h : hasKey l k = true
  · rw [setKey_keys_of_mem v h]
    exact hnd
  · have hnm : k ∉ l.map Prod.fst := by
      intro hm
      exact h (hasKey_iff_mem_keys.2 hm)
    rw [setKey_append_of_not_mem v hnm]
    simp only [List.map_append, List.map_cons, List.map_nil]
    exact List.Nodup.append hnd (List.nodup_singleton k) (by
      intro x hx hx2
      simp only [List.mem_singleton] at hx2
      exact hnm (hx2 ▸ hx))

theorem nodupB_iff {l : List String} : nodupB l = true ↔ l.Nodup := by
  simp [nodupB]

theorem addName_of_mem {l : List String} {n : String} (h : n ∈ l) : addName l n = l := by
  simp [addName, h]

theorem addName_of_not_mem {l : List String} {n : String} (h : n ∉ l) :
    addName l n = l ++ [n] := by
  simp [addName, h]

theorem addName_nodup {l : List String} {n : String} (hnd : l.Nodup) :
    (addName l n).Nodup := by
  by_cases h : n ∈ l
  · rw [addName_of_mem h]
    exact hnd
  · rw [addName_of_not_mem h]
    exact List.Nodup.append hnd (List.nodup_singleton n) (by
      intro x hx hx2
      simp only [List.mem_singleton] at hx2
      exact h (hx2 ▸ hx))

/-! ### Facts about the well-formedness and sub-shape predicates -/

theorem subTE_mem {sv tv : List (String × TypeDescriptor)} (h : subTE sv tv = true) :
    ∀ k v, (k, v) ∈ sv →
      ∃ w, getKey tv k = some w ∧ v.kind = w.kind ∧ subNest v w = true := by
  induction sv with
  | nil => intro k v hm; simp at hm
  | cons e r ih =>
    obtain ⟨a, b⟩ := e
    rw [subTE] at h
    simp only [Bool.and_eq_true] at h
    intro k v hm
    rcases List.mem_cons.1 hm with he | hr
    · injection he with h1 h2
      subst h1
      subst h2
      cases hg : getKey tv k with
      | none => rw [hg] at h; simp at h
      | some w =>
        rw [hg] at h
        simp only [Bool.and_eq_true, decide_eq_true_eq] at h
        exact ⟨w, rfl, h.1.1, h.1.2⟩
    · exact ih h.2 k v hr

theorem subTE_tail {e : String × TypeDescriptor} {r tv : List (String × TypeDescriptor)}
    (h : subTE (e :: r) tv = true) : subTE r tv = true := by
  obtain ⟨a, b⟩ := e
  rw [subTE] at h
  simp only [Bool.and_eq_true] at h
  exact h.2

theorem wfL_mem {tv : List (String × TypeDescriptor)} (h : wfL tv = true) :
    ∀ k w, (k, w) ∈ tv → wfT w = true := by
  induction tv with
  | nil => intro k w hm; simp at hm
  | cons e r ih =>
    rw [wfL] at h
    simp only [Bool.and_eq_true] at h
    intro k w hm
    rcases List.mem_cons.1 hm with he | hr
    · rw [← he] at h
      exact h.1
    · exact ih h.2 k w hr

theorem wfT_record {vs : List (String × TypeDescriptor)} {m : Bool}
    (h : wfT (.record vs m) = true) :
    m = false ∧ (vs.map Prod.fst).Nodup ∧ wfL vs = true := by
  rw [wfT] at h
  simp only [Bool.and_eq_true, Bool.not_eq_true'] at h
  exact ⟨h.1.1, nodupB_iff.1 h.1.2, h.2⟩

/-! ### The canonical-to-locale check under the sub-shape hypothesis -/

theorem phase1_sub (sv : List (String × TypeDescriptor)) (name : String) :
    ∀ (tvIter : List (String × TypeDescriptor)) (ctx : Context),
      (∀ k value svd, (k, value) ∈ tvIter → getKey sv k = some svd →
          svd.kind = value.kind) →
      phase1 sv name tvIter ctx =
        { ctx with
            missing := (mp1 ctx.paths sv tvIter).foldl
              (fun m p => umapMissing m p name) ctx.missing } := by
  intro tvIter
  induction tvIter with
  | nil => intro ctx hk; simp [phase1, mp1]
  | cons e rest ih =>
    intro ctx hk
    obtain ⟨k, value⟩ := e
    rw [phase1]
    cases hg : getKey sv k with
    | none =>
      have hget : hasKey sv k = false := by simp [hasKey, hg]
      rw [ih (upsertMissing ctx (joinPath (getCurrentPath ctx) k) name)
        (fun k2 v2 s2 hm hg2 => hk k2 v2 s2 (List.mem_cons_of_mem _ hm) hg2)]
      rw [mp1]
      simp only [hget, if_neg (by simp : ¬ false = true)]
      simp [upsertMissing, getCurrentPath, joinPath, List.foldl_cons]
    | some svd =>
      have hkind : svd.kind = value.kind := hk k value svd (List.mem_cons_self _ _) hg
      have hget : hasKey sv k = true := by simp [hasKey, hg]
      dsimp only
      rw [if_neg (by simp [hkind])]
      rw [ih ctx (fun k2 v2 s2 hm hg2 => hk k2 v2 s2 (List.mem_cons_of_mem _ hm) hg2)]
      rw [mp1]
      simp [hget]

theorem phase1_of_subTE {sv tv : List (String × TypeDescriptor)} (name : String)
    (ctx : Context) (hsub : subTE sv tv = true) (hnd : (tv.map Prod.fst).Nodup) :
    phase1 sv name tv ctx =
      { ctx with
          missing := (mp1 ctx.paths sv tv).foldl
            (fun m p => umapMissing m p name) ctx.missing } := by
  apply phase1_sub
  intro k value svd hm hg
  obtain ⟨w, hw, hkind, _⟩ := subTE_mem hsub k svd (mem_of_getKey_eq_some hg)
  rw [getKey_of_mem_nodup hnd hm] at hw
  injection hw with hw2
  rw [hw2]
  exact hkind

theorem addError_missing (ctx : Context) (d : Diag) :
    (addError ctx d).missing = ctx.missing := by
  rw [addError]
  split <;> rfl

theorem addError_paths (ctx : Context) (d : Diag) :
    (addError ctx d).paths = ctx.paths := by
  rw [addError]
  split <;> rfl

theorem setPaths_mk (e : List Diag) (p p2 : List String)
    (m : List (String × MissingEntry)) :
    setPaths ⟨e, p, m⟩ p2 = ⟨e, p2, m⟩ := rfl

/-! ### Single-step reduction lemmas for the merge loops -/

theorem mp2_cons_string (pre : List String) (tv : List (String × TypeDescriptor))
    (k s : String) (r : List (String × TypeDescriptor)) :
    mp2 pre tv ((k, .string s) :: r) = mp2 pre tv r := by
  rw [mp2]
  · simp
  · intro _ _ _ _ _ h
    simp at h

theorem mp2_cons_call (pre : List String) (tv : List (String × TypeDescriptor))
    (k : String) (b : List ArgType) (r : List (String × TypeDescriptor)) :
    mp2 pre tv ((k, .call b) :: r) = mp2 pre tv r := by
  rw [mp2]
  · simp
  · intro _ _ _ _ _ h
    simp at h

theorem mp2_cons_record (pre : List String) (tv : List (String × TypeDescriptor))
    (k : String) (svv : List (String × TypeDescriptor)) (sm : Bool)
    (r twv : List (String × TypeDescriptor)) (tm2 : Bool)
    (hw : getKey tv k = some (.record twv tm2)) :
    mp2 pre tv ((k, .record svv sm) :: r) = mp (pre ++ [k]) twv svv ++ mp2 pre tv r := by
  rw [mp2]
  case heq => exact hw

theorem phase2_cons_none (tm : Bool) (name : String) (ctx : Context)
    (tv : List (String × TypeDescriptor)) (k : String) (v : TypeDescriptor)
    (r : List (String × TypeDescriptor)) (hw : getKey tv k = none) :
    phase2 tm name ctx tv ((k, v) :: r) =
      if tm then phase2 tm name ctx (tv ++ [(k, v)]) r
      else phase2 tm name (upsertExists ctx (joinPath (getCurrentPath ctx) k) name) tv r := by
  rw [phase2, hw]

theorem phase2_cons_string (tm : Bool) (name : String) (ctx : Context)
    (tv : List (String × TypeDescriptor)) (k : String) (s sw : String)
    (r : List (String × TypeDescriptor)) (hw : getKey tv k = some (.string sw)) :
    phase2 tm name ctx tv ((k, .string s) :: r) = phase2 tm name ctx tv r := by
  rw [phase2, hw]

theorem phase2_cons_call (tm : Bool) (name : String) (ctx : Context)
    (tv : List (String × TypeDescriptor)) (k : String) (cw vb : List ArgType)
    (r : List (String × TypeDescriptor)) (hw : getKey tv k = some (.call cw)) :
    phase2 tm name ctx tv ((k, .call vb) :: r) =
      (if arrayEq (cw.filter isParamArgType) (vb.filter isParamArgType) ArgType.pname then
        phase2 tm name ctx tv r
      else
        phase2 tm name
          (addError ctx (.argsDifferent (joinPath (getCurrentPath ctx) k)
            (joinComma ((cw.filter isParamArgType).map ArgType.pname))
            (joinComma ((vb.filter isParamArgType).map ArgType.pname)))) tv r) := by
  rw [phase2, hw]

theorem phase2_cons_record (tm : Bool) (name : String) (ctx : Context)
    (tv : List (String × TypeDescriptor)) (k : String)
    (svv : List (String × TypeDescriptor)) (sm : Bool)
    (r twv : List (String × TypeDescriptor)) (twm : Bool)
    (hw : getKey tv k = some (.record twv twm)) :
    phase2 tm name ctx tv ((k, .record svv sm) :: r) =
      phase2 tm name
        (setPaths (mergeRec twv twm svv name (pushPath ctx k)).2 ctx.paths)
        (setKey tv k (.record (mergeRec twv twm svv name (pushPath ctx k)).1 false)) r := by
  rw [phase2, hw]

theorem phase2_cons_mismatch (tm : Bool) (name : String) (ctx : Context)
    (tv : List (String × TypeDescriptor)) (k : String) (tvd v : TypeDescriptor)
    (r : List (String × TypeDescriptor)) (hw : getKey tv k = some tvd)
    (hk : tvd.kind ≠ v.kind) :
    phase2 tm name ctx tv ((k, v) :: r) =
      phase2 tm name
        (addError ctx (.typeMismatch (joinPath (getCurrentPath ctx) k) v.kind tvd.kind))
        tv r := by
  cases tvd <;> cases v <;>
    first
    | exact absurd rfl hk
    | rw [phase2, hw]

/-! ### Merging a sub-shaped locale record into the canonical accumulator -/


theorem phase2_sub :
    ∀ (n : Nat) (svIter tv : List (String × TypeDescriptor)) (tm : Bool)
      (name : String) (ctx : Context),
      teSize svIter ≤ n →
      subTE svIter tv = true →
      (tv.map Prod.fst).Nodup →
      wfL tv = true →
      (phase2 tm name ctx tv svIter).1 = tv ∧
      (phase2 tm name ctx tv svIter).2.missing =
        (mp2 ctx.paths tv svIter).foldl (fun m p => umapMissing m p name) ctx.missing ∧
      (phase2 tm name ctx tv svIter).2.paths = ctx.paths := by
  intro n
  induction n with
  | zero =>
    intro svIter tv tm name ctx hle hsub hnd hwf
    cases svIter with
    | nil => simp [phase2, mp2]
    | cons e r =>
      exfalso
      simp [teSize] at hle
  | succ n ih =>
    intro svIter tv tm name ctx hle hsub hnd hwf
    cases svIter with
    | nil => simp [phase2, mp2]
    | cons e rest =>
      obtain ⟨k, v⟩ := e
      have hsubr : subTE rest tv = true := subTE_tail hsub
      obtain ⟨w, hw, hkind, hnest⟩ := subTE_mem hsub k v (List.mem_cons_self _ _)
      have hler : teSize rest ≤ n := by
        simp [teSize] at hle
        omega
      cases w with
      | string sw =>
        cases v with
        | string s2 =>
          rw [phase2_cons_string tm name ctx tv k s2 sw rest hw,
            mp2_cons_string ctx.paths tv k s2 rest]
          exact ih rest tv tm name ctx hler hsubr hnd hwf
        | call cb => simp [TypeDescriptor.kind] at hkind
        | record rv rm => simp [TypeDescriptor.kind] at hkind
      | call cw =>
        cases v with
        | string s2 => simp [TypeDescriptor.kind] at hkind
        | record rv rm => simp [TypeDescriptor.kind] at hkind
        | call vb =>
          rw [phase2_cons_call tm name ctx tv k cw vb rest hw,
            mp2_cons_call ctx.paths tv k vb rest]
          by_cases ha :
              arrayEq (cw.filter isParamArgType) (vb.filter isParamArgType)
                ArgType.pname = true
          · rw [if_pos ha]
            exact ih rest tv tm name ctx hler hsubr hnd hwf
          · rw [if_neg ha]
            have h2 := ih rest tv tm name
              (addError ctx (.argsDifferent (joinPath (getCurrentPath ctx) k)
                (joinComma ((cw.filter isParamArgType).map ArgType.pname))
                (joinComma ((vb.filter isParamArgType).map ArgType.pname))))
              hler hsubr hnd hwf
            rw [addError_missing, addError_paths] at h2
            exact h2
      | record twv twm =>
        cases v with
        | string s2 => simp [TypeDescriptor.kind] at hkind
        | call cb => simp [TypeDescriptor.kind] at hkind
        | record svv svm =>
          have hwf2 := wfL_mem hwf k (.record twv twm) (mem_of_getKey_eq_some hw)
          obtain ⟨htwm, hnd2, hwfl2⟩ := wfT_record hwf2
          have hsubnest : subTE svv twv = true := by
            rw [subNest] at hnest
            exact hnest
          have hsv : teSize svv ≤ n := by
            simp [teSize, tdSize] at hle
            omega
          subst htwm
          -- characterize the nested merge
          have hnest2 := ih svv twv false name
            ⟨ctx.errors, ctx.paths ++ [k],
              (mp1 (ctx.paths ++ [k]) svv twv).foldl
                (fun m p => umapMissing m p name) ctx.missing⟩
            hsv hsubnest hnd2 hwfl2
          have hmr :
              (mergeRec twv false svv name (pushPath ctx k)).1 = twv ∧
              (mergeRec twv false svv name (pushPath ctx k)).2.missing =
                ((mp1 (ctx.paths ++ [k]) svv twv ++ mp2 (ctx.paths ++ [k]) twv svv).foldl
                  (fun m p => umapMissing m p name) ctx.missing) ∧
              (mergeRec twv false svv name (pushPath ctx k)).2.paths =
                ctx.paths ++ [k] := by
            rw [mergeRec, phase1_of_subTE name (pushPath ctx k) hsubnest hnd2]
            have hpp : pushPath ctx k =
                Context.mk ctx.errors (ctx.paths ++ [k]) ctx.missing := rfl
            rw [hpp]
            refine ⟨hnest2.1, ?_, hnest2.2.2⟩
            rw [hnest2.2.1, List.foldl_append]
          -- the canonical entry is unchanged
          have hsetkey :
              setKey tv k (.record (mergeRec twv false svv name (pushPath ctx k)).1 false)
                = tv := by
            rw [hmr.1]
            exact setKey_eq_self hnd hw
          rw [phase2_cons_record tm name ctx tv k svv svm rest twv false hw]
          rw [hsetkey]
          have hctx3m :
              (setPaths (mergeRec twv false svv name (pushPath ctx k)).2 ctx.paths).missing =
                ((mp (ctx.paths ++ [k]) twv svv).foldl
                  (fun m p => umapMissing m p name) ctx.missing) := by
            rw [setPaths]
            rw [hmr.2.1, mp]
          have hctx3p :
              (setPaths (mergeRec twv false svv name (pushPath ctx k)).2 ctx.paths).paths =
                ctx.paths := rfl
          have h3 := ih rest tv tm name
            (setPaths (mergeRec twv false svv name (pushPath ctx k)).2 ctx.paths)
            hler hsubr hnd hwf
          rw [hctx3m, hctx3p] at h3
          rw [mp2_cons_record ctx.paths tv k svv svm rest twv false hw]
          rw [List.foldl_append]
          exact h3

theorem mergeRec_sub (sv tv : List (String × TypeDescriptor)) (tm : Bool)
    (name : String) (ctx : Context)
    (hsub : subTE sv tv = true)
    (hnd : (tv.map Prod.fst).Nodup)
    (hwf : wfL tv = true) :
    (mergeRec tv tm sv name ctx).1 = tv ∧
    (mergeRec tv tm sv name ctx).2.missing =
      (mp ctx.paths tv sv).foldl (fun m p => umapMissing m p name) ctx.missing ∧
    (mergeRec tv tm sv name ctx).2.paths = ctx.paths := by
  rw [mergeRec, phase1_of_subTE name ctx hsub hnd]
  have h := phase2_sub (teSize sv) sv tv tm name
    ⟨ctx.errors, ctx.paths,
      (mp1 ctx.paths sv tv).foldl (fun m p => umapMissing m p name) ctx.missing⟩
    (Nat.le_refl _) hsub hnd hwf
  refine ⟨h.1, ?_, h.2.2⟩
  rw [h.2.1, mp, List.foldl_append]

/-! ### Seeding of the provisional accumulator -/

theorem phase2_seed :
    ∀ (svIter acc : List (String × TypeDescriptor)) (name : String) (ctx : Context),
      (acc.map Prod.fst ++ svIter.map Prod.fst).Nodup →
      phase2 true name ctx acc svIter = (acc ++ svIter, ctx) := by
  intro svIter
  induction svIter with
  | nil =>
    intro acc name ctx h
    simp [phase2]
  | cons e rest ih =>
    intro acc name ctx h
    obtain ⟨k, v⟩ := e
    have hd := List.nodup_append.1 h
    have hk : k ∉ acc.map Prod.fst := fun hmem =>
      hd.2.2 hmem (by simp)
    have hg : getKey acc k = none := getKey_eq_none_of_not_mem hk
    rw [phase2_cons_none true name ctx acc k v rest hg, if_pos rfl]
    rw [ih (acc ++ [(k, v)]) name ctx (by simpa [List.append_assoc] using h)]
    simp [List.append_assoc]

theorem mergeTop_seed (sv : List (String × TypeDescriptor)) (sm : Bool)
    (name : String) (ctx : Context) (hnd : (sv.map Prod.fst).Nodup) :
    mergeTop (.record [] true) (.record sv sm) name ctx = (.record sv false, ctx) := by
  have h := phase2_seed sv [] name ctx (by simpa using hnd)
  rw [mergeTop, mergeRec, phase1, h]
  simp

/-! ### The tree builder on valid raw dictionaries -/

theorem buildGo_good :
    ∀ (n : Nat) (l : List (String × Yaml)) (acc : List (String × TypeDescriptor))
      (ctx : Context),
      yEntSize l ≤ n → goodE l = true →
      buildGo acc ctx l = .ok (bgo acc l, ctx) := by
  intro n
  induction n with
  | zero =>
    intro l acc ctx hle hg
    cases l with
    | nil => simp [buildGo, bgo]
    | cons e r =>
      exfalso
      simp [yEntSize] at hle
  | succ n ih =>
    intro l acc ctx hle hg
    cases l with
    | nil => simp [buildGo, bgo]
    | cons e r =>
      obtain ⟨key, v⟩ := e
      rw [goodE] at hg
      simp only [Bool.and_eq_true] at hg
      have hler : yEntSize r ≤ n := by
        simp [yEntSize] at hle
        omega
      cases v with
      | str s2 =>
        rw [buildGo, bgo]
        exact ih r _ ctx hler hg.2
      | num n2 =>
        rw [buildGo, bgo]
        exact ih r _ ctx hler hg.2
      | boolean b => simp [goodY] at hg
      | null => simp [goodY] at hg
      | arr vs => simp [goodY] at hg
      | obj es =>
        have hges : goodE es = true := by
          have := hg.1
          rw [goodY] at this
          exact this
        have hles : yEntSize es ≤ n := by
          simp [yEntSize, ySize] at hle
          omega
        rw [buildGo]
        rw [ih es [] (pushPath ctx key) hles hges]
        have hsp : setPaths (pushPath ctx key) ctx.paths = ctx := by
          cases ctx
          rfl
        dsimp only
        rw [hsp, ih r _ ctx hler hg.2, bgo]

theorem bgo_keys_nodup :
    ∀ (n : Nat) (l : List (String × Yaml)) (acc : List (String × TypeDescriptor)),
      yEntSize l ≤ n → (acc.map Prod.fst).Nodup →
      ((bgo acc l).map Prod.fst).Nodup := by
  intro n
  induction n with
  | zero =>
    intro l acc hle hnd
    cases l with
    | nil => simpa [bgo] using hnd
    | cons e r =>
      exfalso
      simp [yEntSize] at hle
  | succ n ih =>
    intro l acc hle hnd
    cases l with
    | nil => simpa [bgo] using hnd
    | cons e r =>
      obtain ⟨key, v⟩ := e
      have hler : yEntSize r ≤ n := by
        simp [yEntSize] at hle
        omega
      cases v with
      | str s2 =>
        rw [bgo]
        exact ih r _ hler (setKey_keys_nodup _ hnd)
      | num n2 =>
        rw [bgo]
        exact ih r _ hler (setKey_keys_nodup _ hnd)
      | boolean b =>
        rw [bgo]
        exact ih r _ hler hnd
      | null =>
        rw [bgo]
        exact ih r _ hler hnd
      | arr vs =>
        rw [bgo]
        exact ih r _ hler (setKey_keys_nodup _ hnd)
      | obj es =>
        rw [bgo]
        exact ih r _ hler (setKey_keys_nodup _ hnd)

/-! ### The ledger-to-diagnostics conversion -/

theorem addError_of_not_mem {ctx : Context} {d : Diag} (h : d ∉ ctx.errors) :
    addError ctx d = { ctx with errors := ctx.errors ++ [d] } := by
  rw [addError, if_neg h]

theorem addError_errors_ne {ctx : Context} (d : Diag) (h : ctx.errors ≠ []) :
    (addError ctx d).errors ≠ [] := by
  rw [addError]
  split
  · exact h
  · simp

theorem addError_errors_ne_of_any (ctx : Context) (d : Diag) :
    (addError ctx d).errors ≠ [] := by
  rw [addError]
  split
  · intro hc
    simp_all
  · simp

theorem nodup_map_keyMissing (g : String × MissingEntry → String) :
    ∀ (entries : List (String × MissingEntry)),
      (entries.map Prod.fst).Nodup →
      (entries.map (fun pe => Diag.keyMissing pe.1 (g pe))).Nodup := by
  intro entries
  induction entries with
  | nil => intro _; simp
  | cons pe rest ih =>
    intro hnd
    simp only [List.map_cons, List.nodup_cons] at hnd ⊢
    refine ⟨?_, ih hnd.2⟩
    intro hmem
    obtain ⟨qe, hq, he⟩ := List.mem_map.1 hmem
    injection he with h1 _
    exact hnd.1 (h1 ▸ List.mem_map_of_mem Prod.fst hq)

theorem foldl_addError_fresh (names : List String) :
    ∀ (entries : List (String × MissingEntry)) (c : Context),
      (∀ pe ∈ entries, ledgerDiag names pe.1 pe.2 ∉ c.errors) →
      (entries.map (fun pe => ledgerDiag names pe.1 pe.2)).Nodup →
      (entries.foldl (fun c2 pe => addError c2 (ledgerDiag names pe.1 pe.2)) c).errors
        = c.errors ++ entries.map (fun pe => ledgerDiag names pe.1 pe.2) := by
  intro entries
  induction entries with
  | nil => intro c _ _; simp
  | cons pe rest ih =>
    intro c hfresh hnd
    simp only [List.map_cons, List.nodup_cons] at hnd
    simp only [List.foldl_cons]
    rw [addError_of_not_mem (hfresh pe (List.mem_cons_self _ _))]
    rw [ih _ ?_ hnd.2]
    · simp
    · intro qe hq
      simp only [List.mem_append, List.mem_singleton, not_or]
      refine ⟨hfresh qe (List.mem_cons_of_mem _ hq), ?_⟩
      intro he
      exact hnd.1 (he ▸ List.mem_map_of_mem _ hq)

theorem ledgerDiag_eq (names : List String) (p : String) (e : MissingEntry) :
    ledgerDiag names p e =
      Diag.keyMissing p
        (if e.existsNames.isEmpty then joinComma e.missingNames
         else joinComma (names.filter (fun x => ¬ e.existsNames.contains x))) := rfl

theorem finalize_errors (names : List String) (ctx : Context)
    (hnd : (ctx.missing.map Prod.fst).Nodup)
    (hfresh : ∀ p s, Diag.keyMissing p s ∉ ctx.errors) :
    (finalizeMissing names ctx).errors =
      ctx.errors ++ ctx.missing.map (fun pe => ledgerDiag names pe.1 pe.2) := by
  rw [finalizeMissing]
  apply foldl_addError_fresh
  · intro pe _
    exact hfresh pe.1 _
  · exact nodup_map_keyMissing _ ctx.missing hnd

theorem foldl_addError_ne (names : List String) :
    ∀ (entries : List (String × MissingEntry)) (c : Context),
      c.errors ≠ [] →
      ((entries.foldl (fun c2 pe => addError c2 (ledgerDiag names pe.1 pe.2)) c).errors) ≠ [] := by
  intro entries
  induction entries with
  | nil => intro c h; exact h
  | cons pe rest ih =>
    intro c h
    simp only [List.foldl_cons]
    exact ih _ (addError_errors_ne _ h)

theorem finalize_errors_ne (names : List String) (ctx : Context)
    (hm : ctx.missing ≠ []) : (finalizeMissing names ctx).errors ≠ [] := by
  rw [finalizeMissing]
  cases hc : ctx.missing with
  | nil => exact absurd hc hm
  | cons pe rest =>
    simp only [List.foldl_cons]
    exact foldl_addError_ne names rest _ (addError_errors_ne_of_any _ _)

/-! ### Folding fresh ledger updates -/

theorem addError_of_mem {ctx : Context} {d : Diag} (h : d ∈ ctx.errors) :
    addError ctx d = ctx := by
  rw [addError, if_pos h]

theorem mem_addName {acc : List String} {a x : String} :
    x ∈ addName acc a ↔ x ∈ acc ∨ x = a := by
  by_cases h : a ∈ acc
  · rw [addName_of_mem h]
    constructor
    · exact Or.inl
    · rintro (h2 | rfl)
      · exact h2
      · exact h
  · rw [addName_of_not_mem h]
    simp

theorem mem_foldl_addName :
    ∀ (l acc : List String) (x : String),
      x ∈ l.foldl addName acc ↔ x ∈ acc ∨ x ∈ l := by
  intro l
  induction l with
  | nil => intro acc x; simp
  | cons a r ih =>
    intro acc x
    simp only [List.foldl_cons]
    rw [ih, mem_addName]
    simp only [List.mem_cons]
    tauto

theorem setOfList_ne_nil {l : List String} (h : l ≠ []) : setOfList l ≠ [] := by
  cases l with
  | nil => exact absurd rfl h
  | cons a r =>
    intro hc
    have ha : a ∈ setOfList (a :: r) :=
      (mem_foldl_addName _ _ _).2 (Or.inr (List.mem_cons_self _ _))
    rw [hc] at ha
    simp at ha

theorem getKey_map_pair (c : MissingEntry) :
    ∀ (ps : List String) (q : String),
      getKey (ps.map (fun p => (p, c))) q = if q ∈ ps then some c else none := by
  intro ps
  induction ps with
  | nil => intro q; simp [getKey]
  | cons p rest ih =>
    intro q
    simp only [List.map_cons, getKey]
    by_cases hpq : p = q
    · subst hpq
      simp
    · rw [if_neg hpq, ih q]
      by_cases hq : q ∈ rest
      · simp [hq]
      · rw [if_neg hq]
        rw [if_neg (fun hm : q ∈ p :: rest =>
          (List.mem_cons.1 hm).elim (fun h => hpq h.symm) hq)]

theorem map_pair_keys (c : MissingEntry) (ps : List String) :
    (ps.map (fun p => (p, c))).map Prod.fst = ps := by
  rw [List.map_map]
  have h : (Prod.fst ∘ fun p : String => (p, c)) = id := rfl
  rw [h, List.map_id]

theorem umap_fold_fresh (name : String) :
    ∀ (paths ps : List String),
      ps.Nodup →
      paths.foldl (fun m p => umapMissing m p name)
          (ps.map (fun p => (p, (⟨[], [name]⟩ : MissingEntry)))) =
        (paths.foldl addName ps).map (fun p => (p, (⟨[], [name]⟩ : MissingEntry))) := by
  intro paths
  induction paths with
  | nil => intro ps _; simp
  | cons p rest ih =>
    intro ps hnd
    simp only [List.foldl_cons]
    by_cases hp : p ∈ ps
    · have hg : getKey (ps.map fun q => (q, (⟨[], [name]⟩ : MissingEntry))) p
          = some ⟨[], [name]⟩ := by
        rw [getKey_map_pair]
        simp [hp]
      have hstep : umapMissing (ps.map fun q => (q, (⟨[], [name]⟩ : MissingEntry))) p name
          = ps.map fun q => (q, (⟨[], [name]⟩ : MissingEntry)) := by
        rw [umapMissing, hg]
        have han : addName [name] name = [name] := addName_of_mem (by simp)
        dsimp only
        rw [han]
        apply setKey_eq_self
        · rw [map_pair_keys]
          exact hnd
        · exact hg
      rw [hstep, addName_of_mem hp]
      exact ih ps hnd
    · have hg : getKey (ps.map fun q => (q, (⟨[], [name]⟩ : MissingEntry))) p = none := by
        rw [getKey_map_pair]
        simp [hp]
      have hstep : umapMissing (ps.map fun q => (q, (⟨[], [name]⟩ : MissingEntry))) p name
          = (ps ++ [p]).map fun q => (q, (⟨[], [name]⟩ : MissingEntry)) := by
        rw [umapMissing, hg]
        dsimp only
        rw [setKey_append_of_not_mem _ (by rw [map_pair_keys]; exact hp)]
        simp
      rw [hstep, addName_of_not_mem hp]
      exact ih (ps ++ [p]) (by
        have := addName_nodup (n := p) hnd
        rwa [addName_of_not_mem hp] at this)

/-! ### Claim theorems -/

/-- C2 (amended): for every pair of locale trees where the smaller locale's
keys form a sub-shape of the larger one (same kinds throughout) and at least
one key is absent from the smaller locale, folding the larger locale first,
the canonical accumulator equals the larger locale's tree, the missing-key
ledger records exactly the paths absent from the smaller locale with that
locale alone in each entry's `missing` set (and an empty `exists` set), and
gen does not succeed: the outcome of gen.ts lines 207-231 is never `ok`
(the ledger turns into missing-key diagnostics and the error set is
non-empty), contrary to the claim's "unification succeeds". -/
theorem c2_superset_ledger (nb ns : String) (tvb tvs : List (String × TypeDescriptor))
    (hsub : subTE tvs tvb = true)
    (hnd : (tvb.map Prod.fst).Nodup)
    (hwf : wfL tvb = true)
    (hstrict : mp [] tvb tvs ≠ []) :
    (unify [(nb, .record tvb false), (ns, .record tvs false)] ⟨[], [], []⟩).1
        = .record tvb false ∧
    (unify [(nb, .record tvb false), (ns, .record tvs false)] ⟨[], [], []⟩).2.missing
        = (setOfList (mp [] tvb tvs)).map
            (fun p => (p, (⟨[], [ns]⟩ : MissingEntry))) ∧
    ∀ x, unifyOutcome (setOfList [nb, ns])
        [(nb, .record tvb false), (ns, .record tvs false)] ⟨[], [], []⟩ ≠ .ok x := by
  have hseed := mergeTop_seed tvb false nb ⟨[], [], []⟩ hnd
  have hm := mergeRec_sub tvs tvb false ns ⟨[], [], []⟩ hsub hnd hwf
  have hunif :
      unify [(nb, .record tvb false), (ns, .record tvs false)] ⟨[], [], []⟩ =
        (.record (mergeRec tvb false tvs ns ⟨[], [], []⟩).1 false,
         (mergeRec tvb false tvs ns ⟨[], [], []⟩).2) := by
    rw [unify]
    simp only [List.foldl_cons, List.foldl_nil]
    rw [hseed]
    rw [mergeTop]
  have hmiss :
      (unify [(nb, .record tvb false), (ns, .record tvs false)] ⟨[], [], []⟩).2.missing
        = (setOfList (mp [] tvb tvs)).map
            (fun p => (p, (⟨[], [ns]⟩ : MissingEntry))) := by
    rw [hunif]
    have h2 := hm.2.1
    have h0 : (⟨[], [], []⟩ : Context).missing
        = ([] : List String).map (fun p => (p, (⟨[], [ns]⟩ : MissingEntry))) := rfl
    rw [h0] at h2
    rw [h2, umap_fold_fresh ns _ [] List.nodup_nil]
    rfl
  refine ⟨?_, hmiss, ?_⟩
  · rw [hunif]
    dsimp only
    rw [hm.1]
  · intro x hx
    have hnonempty : (unify [(nb, .record tvb false), (ns, .record tvs false)]
        ⟨[], [], []⟩).2.missing ≠ [] := by
      rw [hmiss]
      intro hc
      rw [List.map_eq_nil_iff] at hc
      exact setOfList_ne_nil hstrict hc
    have hne := finalize_errors_ne (setOfList [nb, ns]) _ hnonempty
    rw [unifyOutcome] at hx
    rw [if_neg (by
      intro hempty
      exact hne (List.isEmpty_iff.1 hempty))] at hx
    exact Except.noConfusion hx

/-- C3 (amended): during folding, a key absent from the canonical accumulator
is adopted into it exactly when the accumulator still carries the provisional
flag, and is recorded on the `exists` side of the ledger otherwise; the
provisional flag is cleared unconditionally at the end of every merge
invocation, so the accumulator is provisional exactly while folding the very
first locale -- even one that contributed no keys -- and after an empty first
locale a later locale's keys do not seed the schema (contrary to the claim's
parenthetical). -/
theorem c3_adoption_iff_provisional :
    (∀ (k : String) (v : TypeDescriptor) (tm : Bool) (name : String) (ctx : Context),
      mergeRec [] tm [(k, v)] name ctx =
        (if tm then [(k, v)] else [],
         if tm then ctx
         else upsertExists ctx (joinPath (getCurrentPath ctx) k) name)) ∧
    (∀ (tv : List (String × TypeDescriptor)) (tm : Bool)
      (sv : List (String × TypeDescriptor)) (sm : Bool) (name : String) (ctx : Context),
      (mergeTop (.record tv tm) (.record sv sm) name ctx).1 =
        .record (mergeRec tv tm sv name ctx).1 false) := by
  constructor
  · intro k v tm name ctx
    rw [mergeRec, phase1, phase2_cons_none tm name ctx [] k v [] rfl]
    cases tm
    · simp [phase2]
    · simp [phase2]
  · intro tv tm sv sm name ctx
    rw [mergeTop]

/-- C8 (confirmed): for a key present in canonical and a locale tree as
Call/Call, merge compares the ordered `Param` name sequences (Literal
fragments ignored) position by position; the two are compatible exactly when
the name sequences are equal, any difference adds one diagnostic at that path
naming both comma-joined sequences, and the canonical descriptor for the key
is left unchanged either way. -/
theorem c8_call_signature (k : String) (tb vb : List ArgType) (tm : Bool)
    (name : String) (ctx : Context) :
    mergeRec [(k, .call tb)] tm [(k, .call vb)] name ctx =
      ([(k, .call tb)],
        if (tb.filter isParamArgType).map ArgType.pname
            = (vb.filter isParamArgType).map ArgType.pname then ctx
        else addError ctx (.argsDifferent (joinPath (getCurrentPath ctx) k)
          (joinComma ((tb.filter isParamArgType).map ArgType.pname))
          (joinComma ((vb.filter isParamArgType).map ArgType.pname)))) := by
  have hg1 : getKey [(k, TypeDescriptor.call vb)] k = some (.call vb) := by
    simp [getKey]
  have hg2 : getKey [(k, TypeDescriptor.call tb)] k = some (.call tb) := by
    simp [getKey]
  have h1 : phase1 [(k, TypeDescriptor.call vb)] name [(k, TypeDescriptor.call tb)] ctx
      = ctx := by
    rw [phase1, hg1]
    dsimp only
    rw [if_neg (by simp [TypeDescriptor.kind]), phase1]
  rw [mergeRec, h1, phase2_cons_call tm name ctx _ k tb vb [] hg2]
  by_cases ha : arrayEq (tb.filter isParamArgType) (vb.filter isParamArgType)
      ArgType.pname = true
  · have heq : (tb.filter isParamArgType).map ArgType.pname
        = (vb.filter isParamArgType).map ArgType.pname := by
      rw [arrayEq, beq_iff_eq] at ha
      exact ha
    rw [if_pos ha, if_pos heq, phase2]
  · have hne : ¬ (tb.filter isParamArgType).map ArgType.pname
        = (vb.filter isParamArgType).map ArgType.pname := by
      intro hc
      exact ha (by rw [arrayEq, beq_iff_eq]; exact hc)
    rw [if_neg ha, if_neg hne, phase2]

/-- C9 (confirmed): gen is deterministic -- the embedded unification core is a
pure function of the ordered input list, so two invocations on the same input
produce the identical outcome (same canonical schema and per-locale trees, or
the same aggregated error). -/
theorem c9_deterministic (files : List (String × List (String × Yaml)))
    (r1 r2 : Except GenError (TypeDescriptor × List (String × TypeDescriptor)))
    (h1 : r1 = genCore files) (h2 : r2 = genCore files) : r1 = r2 :=
  h1.trans h2.symm

/-- Witness for C9 at a concrete input. -/
theorem c9_deterministic_witness :
    genCore [("en", [("a", Yaml.str "hi")])] = genCore [("en", [("a", Yaml.str "hi")])] :=
  c9_deterministic [("en", [("a", Yaml.str "hi")])] _ _ rfl rfl

/-- C10 (confirmed): when a key is present in both the canonical accumulator
and a locale tree with differing kinds, both merge phases construct the very
same type-mismatch message (path, actual kind from the locale, expected kind
from canonical); the error store is a deduplicating set, so exactly one such
diagnostic appears in the final error set. -/
theorem c10_dedup_mismatch (k : String) (dt ds : TypeDescriptor) (tm : Bool)
    (name : String) (ctx : Context)
    (hk : dt.kind ≠ ds.kind)
    (hfresh : Diag.typeMismatch (joinPath (getCurrentPath ctx) k) ds.kind dt.kind
      ∉ ctx.errors) :
    (mergeRec [(k, dt)] tm [(k, ds)] name ctx).1 = [(k, dt)] ∧
    (mergeRec [(k, dt)] tm [(k, ds)] name ctx).2.errors =
      ctx.errors ++ [.typeMismatch (joinPath (getCurrentPath ctx) k) ds.kind dt.kind] ∧
    ((mergeRec [(k, dt)] tm [(k, ds)] name ctx).2.errors).count
      (Diag.typeMismatch (joinPath (getCurrentPath ctx) k) ds.kind dt.kind) = 1 := by
  have hg1 : getKey [(k, ds)] k = some ds := by simp [getKey]
  have hg2 : getKey [(k, dt)] k = some dt := by simp [getKey]
  have h1 : phase1 [(k, ds)] name [(k, dt)] ctx
      = addError ctx
          (.typeMismatch (joinPath (getCurrentPath ctx) k) ds.kind dt.kind) := by
    rw [phase1, hg1]
    dsimp only
    rw [if_pos (Ne.symm hk), phase1]
  have hmem : Diag.typeMismatch (joinPath (getCurrentPath ctx) k) ds.kind dt.kind
      ∈ (addError ctx
          (.typeMismatch (joinPath (getCurrentPath ctx) k) ds.kind dt.kind)).errors := by
    rw [addError_of_not_mem hfresh]
    simp
  have hpaths := addError_paths ctx
    (.typeMismatch (joinPath (getCurrentPath ctx) k) ds.kind dt.kind)
  have hcp : getCurrentPath (addError ctx
      (.typeMismatch (joinPath (getCurrentPath ctx) k) ds.kind dt.kind))
      = getCurrentPath ctx := by
    rw [getCurrentPath, hpaths, getCurrentPath]
  rw [mergeRec, h1, phase2_cons_mismatch tm name _ _ k dt ds [] hg2 hk]
  rw [hcp, addError_of_mem hmem, phase2]
  rw [addError_of_not_mem hfresh]
  refine ⟨rfl, rfl, ?_⟩
  dsimp only
  rw [List.count_append]
  rw [List.count_eq_zero.2 hfresh]
  simp

/-- Witness for C10 at a concrete input: a string leaf against a record. -/
theorem c10_dedup_mismatch_witness :
    (mergeRec [("a", .string "x")] false [("a", .record [] false)] "B" ⟨[], [], []⟩).1
        = [("a", .string "x")] ∧
    (mergeRec [("a", .string "x")] false [("a", .record [] false)] "B" ⟨[], [], []⟩).2.errors
        = [] ++ [.typeMismatch (joinPath (getCurrentPath ⟨[], [], []⟩) "a")
            (TypeDescriptor.record [] false).kind (TypeDescriptor.string "x").kind] ∧
    ((mergeRec [("a", .string "x")] false [("a", .record [] false)] "B"
        ⟨[], [], []⟩).2.errors).count
      (Diag.typeMismatch (joinPath (getCurrentPath ⟨[], [], []⟩) "a")
        (TypeDescriptor.record [] false).kind (TypeDescriptor.string "x").kind) = 1 :=
  c10_dedup_mismatch "a" (.string "x") (.record [] false) false "B" ⟨[], [], []⟩
    (by simp [TypeDescriptor.kind]) (by simp)

/-- C1 (counterexample): for locales A with raw dictionary x mapped to "1" and
B with y mapped to "2", gen applied to the ordered list A, B does not succeed:
each locale lacks the other locale's key, both presence gaps become
missing-key diagnostics, and gen throws the composite error -- refuting the
claim that this input unifies without error. -/
theorem c1_counterexample :
    genCore [("A", [("x", Yaml.str "1")]), ("B", [("y", Yaml.str "2")])]
      = .error (.composite
          [(1, .keyMissing ".x" "B"), (2, .keyMissing ".y" "A")]) := by
  simp [genCore, buildAll, toTypeNode, buildGo, strOrCall, matchCallBody, scanArgs,
    unify, unifyOutcome, mergeTop, mergeRec, phase2, phase1, getKey, setKey, hasKey,
    addError, upsertMissing, upsertExists, umapMissing, umapExists, addName,
    setOfList, finalizeMissing, ledgerDiag, joinComma, joinPath, getCurrentPath,
    pushPath, setPaths, numberList, isParamArgType, lbrace, nameChar, enumEntries,
    List.enum, String.intercalate, String.intercalate.go, genMerged, genDiags]

/-- C1 (amended): for locales A with x mapped to "1" and B with y mapped to
"2", gen throws on both orders (each locale misses the other's key); the
canonical accumulator built by the fold contains only the first locale's keys
-- x alone for the order A, B and y alone for the order B, A -- because the
provisional flag is cleared after the first merge, so the canonical key set is
not the union and is not the same across the two orders. -/
theorem c1_first_locale_seeds :
    genMerged [("A", [("x", Yaml.str "1")]), ("B", [("y", Yaml.str "2")])]
        = some (.record [("x", .string "1")] false) ∧
    genMerged [("B", [("y", Yaml.str "2")]), ("A", [("x", Yaml.str "1")])]
        = some (.record [("y", .string "2")] false) ∧
    genCore [("A", [("x", Yaml.str "1")]), ("B", [("y", Yaml.str "2")])]
        = .error (.composite
            [(1, .keyMissing ".x" "B"), (2, .keyMissing ".y" "A")]) ∧
    genCore [("B", [("y", Yaml.str "2")]), ("A", [("x", Yaml.str "1")])]
        = .error (.composite
            [(1, .keyMissing ".y" "A"), (2, .keyMissing ".x" "B")]) := by
  refine ⟨?_, ?_, ?_, ?_⟩ <;>
    simp [genCore, buildAll, toTypeNode, buildGo, strOrCall, matchCallBody, scanArgs,
    unify, unifyOutcome, mergeTop, mergeRec, phase2, phase1, getKey, setKey, hasKey,
    addError, upsertMissing, upsertExists, umapMissing, umapExists, addName,
    setOfList, finalizeMissing, ledgerDiag, joinComma, joinPath, getCurrentPath,
    pushPath, setPaths, numberList, isParamArgType, lbrace, nameChar, enumEntries,
    List.enum, String.intercalate, String.intercalate.go, genMerged, genDiags]

/-- C2 (counterexample): locale A declares x and y, locale B declares only x
(a strict key superset with equal kinds), yet gen throws with a missing-key
diagnostic instead of succeeding as the claim states. -/
theorem c2_counterexample :
    genCore [("A", [("x", Yaml.str "1"), ("y", Yaml.str "2")]),
             ("B", [("x", Yaml.str "1")])]
      = .error (.composite [(1, .keyMissing ".y" "B")]) := by
  simp [genCore, buildAll, toTypeNode, buildGo, strOrCall, matchCallBody, scanArgs,
    unify, unifyOutcome, mergeTop, mergeRec, phase2, phase1, getKey, setKey, hasKey,
    addError, upsertMissing, upsertExists, umapMissing, umapExists, addName,
    setOfList, finalizeMissing, ledgerDiag, joinComma, joinPath, getCurrentPath,
    pushPath, setPaths, numberList, isParamArgType, lbrace, nameChar, enumEntries,
    List.enum, String.intercalate, String.intercalate.go, genMerged, genDiags]

/-- Witness for C2 (amended) at a concrete pair of trees. -/
theorem c2_superset_ledger_witness :
    subTE [("x", TypeDescriptor.string "1")]
        [("x", TypeDescriptor.string "1"), ("y", TypeDescriptor.string "2")] = true ∧
    ((unify [("A", .record [("x", TypeDescriptor.string "1"),
          ("y", TypeDescriptor.string "2")] false),
        ("B", .record [("x", TypeDescriptor.string "1")] false)] ⟨[], [], []⟩).1
      = .record [("x", TypeDescriptor.string "1"), ("y", TypeDescriptor.string "2")] false ∧
    (unify [("A", .record [("x", TypeDescriptor.string "1"),
          ("y", TypeDescriptor.string "2")] false),
        ("B", .record [("x", TypeDescriptor.string "1")] false)] ⟨[], [], []⟩).2.missing
      = (setOfList (mp [] [("x", TypeDescriptor.string "1"), ("y", TypeDescriptor.string "2")]
          [("x", TypeDescriptor.string "1")])).map
            (fun p => (p, (⟨[], ["B"]⟩ : MissingEntry))) ∧
    ∀ x, unifyOutcome (setOfList ["A", "B"])
        [("A", .record [("x", TypeDescriptor.string "1"),
            ("y", TypeDescriptor.string "2")] false),
          ("B", .record [("x", TypeDescriptor.string "1")] false)] ⟨[], [], []⟩
          ≠ .ok x) :=
  ⟨by simp [subTE, subNest, getKey, TypeDescriptor.kind],
   c2_superset_ledger "A" "B"
     [("x", TypeDescriptor.string "1"), ("y", TypeDescriptor.string "2")]
     [("x", TypeDescriptor.string "1")]
     (by simp [subTE, subNest, getKey, TypeDescriptor.kind])
     (by simp)
     (by simp [wfL, wfT])
     (by simp [mp, mp1, mp2, hasKey, getKey, joinPath, String.intercalate])⟩

/-- C3 (counterexample): after folding a first locale that contributed no keys
(an empty dictionary), the accumulator is no longer provisional, so a later
locale's key x is not adopted into the schema (the canonical record stays
empty) and is instead recorded on the `exists` side of the ledger -- refuting
the claim that the accumulator stays provisional while it has accepted no
keys. -/
theorem c3_counterexample :
    (unify [("A", .record [] false), ("B", .record [("x", .string "1")] false)]
        ⟨[], [], []⟩).1 = .record [] false ∧
    (unify [("A", .record [] false), ("B", .record [("x", .string "1")] false)]
        ⟨[], [], []⟩).2.missing = [(".x", ⟨["B"], []⟩)] := by
  constructor <;>
    simp [genCore, buildAll, toTypeNode, buildGo, strOrCall, matchCallBody, scanArgs,
    unify, unifyOutcome, mergeTop, mergeRec, phase2, phase1, getKey, setKey, hasKey,
    addError, upsertMissing, upsertExists, umapMissing, umapExists, addName,
    setOfList, finalizeMissing, ledgerDiag, joinComma, joinPath, getCurrentPath,
    pushPath, setPaths, numberList, isParamArgType, lbrace, nameChar, enumEntries,
    List.enum, String.intercalate, String.intercalate.go, genMerged, genDiags]

/-- C5 (code behavior at the failing inputs): a `null` leaf reaches the
`typeof 'object'` branch of `toTypeNode`, so `Object.entries(null)` throws a
`TypeError` that propagates out of gen (no diagnostic, no skipping); an array
leaf is also `typeof 'object'` and is silently built as a nested record keyed
by decimal indices (no diagnostic, key kept).  Only a boolean leaf reaches the
`default` branch the claim describes: it records the unexpected-value
diagnostic, is excluded from the tree, and building continues with the
remaining keys. -/
theorem c5_unexpected_values :
    genCore [("en", [("a", Yaml.null)])] = .error (.jsError .typeError) ∧
    toTypeNode [("flag", Yaml.boolean true), ("b", Yaml.str "x")] ⟨[], [], []⟩
        = .ok (.record [("b", .string "x")] false,
            ⟨[.unexpectedValue "flag" "true"], [], []⟩) ∧
    genMerged [("en", [("items", Yaml.arr [Yaml.str "a", Yaml.str "b"])])]
        = some (.record
            [("items", .record [("0", .string "a"), ("1", .string "b")] false)]
            false) := by
  have h0 : toString (0 : Nat) = "0" := rfl
  have h1 : toString (1 : Nat) = "1" := rfl
  refine ⟨?_, ?_, ?_⟩ <;>
    simp [h0, h1, genCore, buildAll, toTypeNode, buildGo, strOrCall, matchCallBody, scanArgs,
    unify, unifyOutcome, mergeTop, mergeRec, phase2, phase1, getKey, setKey, hasKey,
    addError, upsertMissing, upsertExists, umapMissing, umapExists, addName,
    setOfList, finalizeMissing, ledgerDiag, joinComma, joinPath, getCurrentPath,
    pushPath, setPaths, numberList, isParamArgType, lbrace, nameChar, enumEntries,
    List.enum, String.intercalate, String.intercalate.go, genMerged, genDiags]

/-- C4 (confirmed): for a single locale whose raw dictionary holds only
string, number and nested-dictionary values, gen used on that locale alone
succeeds, the final diagnostic set is empty, and the canonical schema is
exactly the locale's own tree (same keys, kinds and parameter sequences at
every path, since the trees are equal). -/
theorem c4_single_locale (n : String) (node : List (String × Yaml))
    (hg : goodE node = true) :
    genCore [(n, node)] =
      .ok (.record (bgo [] node) false, [(n, .record (bgo [] node) false)]) ∧
    genDiags [(n, node)] = some [] := by
  have hbg := buildGo_good (yEntSize node) node [] ⟨[], [], []⟩ (Nat.le_refl _) hg
  have ht : toTypeNode node ⟨[], [], []⟩
      = .ok (.record (bgo [] node) false, ⟨[], [], []⟩) := by
    rw [toTypeNode, hbg]
  have hb : buildAll ⟨[], [], []⟩ [(n, node)]
      = .ok ([(n, .record (bgo [] node) false)], ⟨[], [], []⟩) := by
    rw [buildAll, ht]
    dsimp only
    rw [buildAll]
  have hnd : ((bgo [] node).map Prod.fst).Nodup :=
    bgo_keys_nodup (yEntSize node) node [] (Nat.le_refl _) (by simp)
  have hu : unify [(n, .record (bgo [] node) false)] ⟨[], [], []⟩
      = (.record (bgo [] node) false, ⟨[], [], []⟩) := by
    rw [unify]
    simp only [List.foldl_cons, List.foldl_nil]
    exact mergeTop_seed _ false n ⟨[], [], []⟩ hnd
  have hf : ∀ names, finalizeMissing names (⟨[], [], []⟩ : Context) = ⟨[], [], []⟩ := by
    intro names
    rfl
  constructor
  · rw [genCore, hb]
    dsimp only
    rw [unifyOutcome, hu, hf]
    rfl
  · rw [genDiags, hb]
    dsimp only
    rw [hu, hf]

/-- Witness for C4 at a concrete locale with a string, a number and a nested
dictionary. -/
theorem c4_single_locale_witness :
    goodE [("a", Yaml.str "hi"), ("b", Yaml.obj [("c", Yaml.num 3)])] = true ∧
    (genCore [("en", [("a", Yaml.str "hi"), ("b", Yaml.obj [("c", Yaml.num 3)])])]
      = .ok (.record (bgo [] [("a", Yaml.str "hi"), ("b", Yaml.obj [("c", Yaml.num 3)])]) false,
          [("en", .record (bgo [] [("a", Yaml.str "hi"), ("b", Yaml.obj [("c", Yaml.num 3)])]) false)]) ∧
    genDiags [("en", [("a", Yaml.str "hi"), ("b", Yaml.obj [("c", Yaml.num 3)])])]
      = some []) :=
  ⟨by simp [goodE, goodY],
   c4_single_locale "en" [("a", Yaml.str "hi"), ("b", Yaml.obj [("c", Yaml.num 3)])]
     (by simp [goodE, goodY])⟩

/-- C6 (confirmed): once all locales are built and folded, gen throws exactly
when the accumulated error set is non-empty; the thrown failure is one
composite error enumerating every collected diagnostic as a numbered list
(index plus one for each entry, in order), and when it throws the result is
the error alone -- no generated output is produced. -/
theorem c6_throw_iff_errors (files : List (String × List (String × Yaml)))
    (tns : List (String × TypeDescriptor)) (ctx : Context)
    (hb : buildAll ⟨[], [], []⟩ files = .ok (tns, ctx)) :
    genCore files =
      (if (finalizeMissing (setOfList (files.map (fun f => f.1)))
            (unify tns ctx).2).errors = []
       then .ok ((unify tns ctx).1, tns)
       else .error (.composite
         (((finalizeMissing (setOfList (files.map (fun f => f.1)))
            (unify tns ctx).2).errors).enum.map (fun p => (p.1 + 1, p.2))))) := by
  rw [genCore, hb]
  dsimp only
  rw [unifyOutcome]
  by_cases he : (finalizeMissing (setOfList (files.map (fun f => f.1)))
      (unify tns ctx).2).errors = []
  · simp [he]
  · simp [he, numberList, List.isEmpty_iff]

/-- Witness for C6 at a concrete single-locale input. -/
theorem c6_throw_iff_errors_witness :
    buildAll ⟨[], [], []⟩ [("A", [("a", Yaml.str "x")])]
        = .ok ([("A", TypeDescriptor.record [("a", TypeDescriptor.string "x")] false)],
            ⟨[], [], []⟩) ∧
    genCore [("A", [("a", Yaml.str "x")])] =
      (if (finalizeMissing (setOfList ([("A", [("a", Yaml.str "x")])].map (fun f => f.1)))
            (unify [("A", TypeDescriptor.record [("a", TypeDescriptor.string "x")] false)]
              ⟨[], [], []⟩).2).errors = []
       then .ok ((unify [("A", TypeDescriptor.record [("a", TypeDescriptor.string "x")] false)]
              ⟨[], [], []⟩).1,
            [("A", TypeDescriptor.record [("a", TypeDescriptor.string "x")] false)])
       else .error (.composite
         (((finalizeMissing (setOfList ([("A", [("a", Yaml.str "x")])].map (fun f => f.1)))
            (unify [("A", TypeDescriptor.record [("a", TypeDescriptor.string "x")] false)]
              ⟨[], [], []⟩).2).errors).enum.map (fun p => (p.1 + 1, p.2))))) :=
  ⟨by simp [genCore, buildAll, toTypeNode, buildGo, strOrCall, matchCallBody, scanArgs,
      unify, unifyOutcome, mergeTop, mergeRec, phase2, phase1, getKey, setKey, hasKey,
      addError, upsertMissing, upsertExists, umapMissing, umapExists, addName,
      setOfList, finalizeMissing, ledgerDiag, joinComma, joinPath, getCurrentPath,
      pushPath, setPaths, numberList, isParamArgType, lbrace, nameChar, enumEntries,
      List.enum, String.intercalate, String.intercalate.go],
   c6_throw_iff_errors [("A", [("a", Yaml.str "x")])]
     [("A", TypeDescriptor.record [("a", TypeDescriptor.string "x")] false)] ⟨[], [], []⟩
     (by simp [genCore, buildAll, toTypeNode, buildGo, strOrCall, matchCallBody, scanArgs,
      unify, unifyOutcome, mergeTop, mergeRec, phase2, phase1, getKey, setKey, hasKey,
      addError, upsertMissing, upsertExists, umapMissing, umapExists, addName,
      setOfList, finalizeMissing, ledgerDiag, joinComma, joinPath, getCurrentPath,
      pushPath, setPaths, numberList, isParamArgType, lbrace, nameChar, enumEntries,
      List.enum, String.intercalate, String.intercalate.go])⟩

/-- C7 (confirmed): converting the missing ledger emits exactly one diagnostic
per recorded path, in ledger order; the offending locale names are the
complement of the entry's `exists` set against the full locale-name set when
`exists` is non-empty, and exactly the entry's `missing` set when `exists` is
empty. -/
theorem c7_ledger_conversion (names : List String) (ctx : Context)
    (hnd : (ctx.missing.map Prod.fst).Nodup)
    (hfresh : ∀ p s, Diag.keyMissing p s ∉ ctx.errors) :
    (finalizeMissing names ctx).errors =
      ctx.errors ++ ctx.missing.map (fun pe =>
        Diag.keyMissing pe.1
          (if pe.2.existsNames.isEmpty then joinComma pe.2.missingNames
           else joinComma (names.filter (fun x => ¬ pe.2.existsNames.contains x)))) := by
  rw [finalize_errors names ctx hnd hfresh]
  rfl

/-- Witness for C7 at a concrete ledger exercising both the complement case
and the missing-set case. -/
theorem c7_ledger_conversion_witness :
    ((⟨[], [], [(".x", ⟨[], ["B"]⟩), (".y", ⟨["B"], []⟩)]⟩ : Context).missing.map
        Prod.fst).Nodup ∧
    (finalizeMissing ["A", "B"]
        ⟨[], [], [(".x", ⟨[], ["B"]⟩), (".y", ⟨["B"], []⟩)]⟩).errors =
      ([] : List Diag) ++
        ([(".x", (⟨[], ["B"]⟩ : MissingEntry)), (".y", ⟨["B"], []⟩)]).map (fun pe =>
          Diag.keyMissing pe.1
            (if pe.2.existsNames.isEmpty then joinComma pe.2.missingNames
             else joinComma (["A", "B"].filter (fun x => ¬ pe.2.existsNames.contains x)))) :=
  ⟨by decide,
   c7_ledger_conversion ["A", "B"] ⟨[], [], [(".x", ⟨[], ["B"]⟩), (".y", ⟨["B"], []⟩)]⟩
     (by decide) (by intro p s2; simp)⟩

end TypeI18n
